import Mathlib

/-!
Shallow embedding of the transformation/validation core of the `e2sm` CLI
(src/lib.ts, src/lib/config.ts, src/pull.ts and the delete subcommand),
together with proofs about the embedded functions.

JavaScript strings are modelled as `List Char`; JavaScript plain objects
(records) are modelled as association lists in property-insertion order,
with `Object.entries` enumeration order (array-index keys first, ascending,
then string keys in insertion order) modelled explicitly.
-/

namespace E2sm

/-- JS strings, modelled as lists of characters. -/
abbrev Str := List Char

/-- The set of characters removed by `String.prototype.trim` in JavaScript
(ECMAScript WhiteSpace and LineTerminator code points). -/
def jsWhitespace (c : Char) : Bool :=
  c.toNat ∈ [0x9, 0xa, 0xb, 0xc, 0xd, 0x20, 0xa0, 0x1680,
    0x2000, 0x2001, 0x2002, 0x2003, 0x2004, 0x2005, 0x2006, 0x2007,
    0x2008, 0x2009, 0x200a, 0x2028, 0x2029, 0x202f, 0x205f, 0x3000, 0xfeff]

/-- Leading-whitespace removal, the first half of JS `trim`. -/
def trimStart (s : Str) : Str := s.dropWhile jsWhitespace

/-- Trailing-whitespace removal, the second half of JS `trim`. -/
def trimEnd (s : Str) : Str := (s.reverse.dropWhile jsWhitespace).reverse

/-- JS `String.prototype.trim`. -/
def trim (s : Str) : Str := trimEnd (trimStart s)

/-- JS `content.split("\n")`: split on every line feed; an empty input
yields one empty piece. -/
def splitNl : Str → List Str
  | [] => [[]]
  | c :: rest =>
    if c = '\n' then [] :: splitNl rest
    else
      match splitNl rest with
      | [] => [[c]]
      | r :: rs => (c :: r) :: rs

/-- JS `Array.prototype.join(sep)` on a list of strings. -/
def joinSep (sep : Str) : List Str → Str
  | [] => []
  | [s] => s
  | s :: rest => s ++ sep ++ joinSep sep rest

/-- JS `String.prototype.indexOf` restricted to a single-character search
string: index of the first occurrence, `none` when absent (JS returns -1). -/
def idxOf? (c : Char) : Str → Option Nat
  | [] => none
  | x :: rest => if x = c then some 0 else (idxOf? c rest).map (· + 1)

/-- Property assignment `o[k] = v` on a JS object in insertion order:
an existing key keeps its position and gets the new value, a new key is
appended at the end. -/
def setProp {α : Type} : List (Str × α) → Str → α → List (Str × α)
  | [], k, v => [(k, v)]
  | (k', v') :: rest, k, v =>
    if k' = k then (k', v) :: rest else (k', v') :: setProp rest k v

/-- Property read `o[k]` on a JS object (association list). -/
def getProp {α : Type} : List (Str × α) → Str → Option α
  | [], _ => none
  | (k', v) :: rest, k => if k' = k then some v else getProp rest k

/-- Numeric value of a decimal digit string. -/
def decVal (s : Str) : Nat := s.foldl (fun a c => a * 10 + (c.toNat - 48)) 0

/-- JS array-index keys: a key is an array index when it is the canonical
decimal representation of an integer below 2^32 - 1. Such keys are
enumerated first, in ascending numeric order, by `Object.entries`. -/
def arrayIndexOf (k : Str) : Option Nat :=
  if k ≠ [] ∧ k.all Char.isDigit ∧ (k = ['0'] ∨ k.head? ≠ some '0') ∧
      decVal k < 2 ^ 32 - 1 then
    some (decVal k)
  else none

/-- JS `Object.entries` enumeration order: array-index keys first in
ascending numeric order, then the remaining keys in insertion order. -/
def entriesJs {α : Type} (o : List (Str × α)) : List (Str × α) :=
  (List.insertionSort
      (fun p q => ((arrayIndexOf p.1).getD 0) ≤ ((arrayIndexOf q.1).getD 0))
      (o.filter fun p => (arrayIndexOf p.1).isSome)) ++
    (o.filter fun p => !(arrayIndexOf p.1).isSome)

/-! ### EnvCodec (src/lib.ts `parseEnvContent`, `jsonToEnv`, `generateEnvHeader`) -/

/-- A parsed `.env` mapping, a JS object whose values are strings, kept in
property-insertion order. -/
abbrev EnvObj := List (Str × Str)

/-- The quote test of `parseEnvContent` (src/lib.ts lines 99-101): the
trimmed value starts and ends with a double quote, or starts and ends with
a single quote. `startsWith`/`endsWith` are false on the empty string. -/
def isQuotedVal (v : Str) : Bool :=
  (v.head? == some '"' && v.getLast? == some '"') ||
    (v.head? == some '\'' && v.getLast? == some '\'')

/-- Inline-comment removal for unquoted values (src/lib.ts lines 107-111):
truncate at the first `#`, if any, and trim. -/
def stripInlineComment (v : Str) : Str :=
  match idxOf? '#' v with
  | some i => trim (v.take i)
  | none => v

/-- The value-processing step of `parseEnvContent` (src/lib.ts lines
98-112): strip one surrounding quote from each end when `isQuotedVal`
holds (JS `slice(1, -1)`), otherwise strip an inline comment. -/
def processValue (v : Str) : Str :=
  if isQuotedVal v then (v.drop 1).dropLast else stripInlineComment v

/-- One iteration of the `parseEnvContent` loop (src/lib.ts lines 82-117):
the key/value pair a line contributes, or `none` when the line is skipped
(blank, comment, no `=`, or empty key). -/
def parseEnvLine (line : Str) : Option (Str × Str) :=
  let trimmed := trim line
  if trimmed = [] then none
  else if trimmed.head? = some '#' then none
  else
    match idxOf? '=' trimmed with
    | none => none
    | some i =>
      let key := trim (trimmed.take i)
      let value := processValue (trim (trimmed.drop (i + 1)))
      if key = [] then none else some (key, value)

/-- `parseEnvContent` (src/lib.ts lines 79-120): split on line feeds and
fold each line's contribution into the result object. -/
def parseEnvContent (content : Str) : EnvObj :=
  (splitNl content).foldl
    (fun o line =>
      match parseEnvLine line with
      | some (k, v) => setProp o k v
      | none => o)
    []

/-- `value.replace(/"/g, '\\"')` (src/lib.ts line 393): escape every double
quote with a backslash. -/
def escapeQuotes (v : Str) : Str :=
  v.flatMap fun c => if c = '"' then ['\\', '"'] else [c]

/-- One serialized entry of `jsonToEnv`: `` `${key}="${escaped}"` ``. -/
def envEntryLine (p : Str × Str) : Str :=
  p.1 ++ '=' :: '"' :: (escapeQuotes p.2 ++ ['"'])

/-- `jsonToEnv` (src/lib.ts lines 390-397): serialize each entry, in
`Object.entries` order, and join with line feeds. -/
def jsonToEnv (data : EnvObj) : Str :=
  joinSep ['\n'] ((entriesJs data).map envEntryLine)

/-- `generateEnvHeader` (src/lib.ts lines 399-401). -/
def generateEnvHeader (secretName : Str) : Str :=
  "# Generated by e2sm\n# Source: ".toList ++ secretName

/-- The bytes `pullCommand` writes to the output file (src/pull.ts line
210): `header + "\n" + envContent + "\n"`. -/
def pullWrittenFile (secretName envContent : Str) : Str :=
  generateEnvHeader secretName ++ '\n' :: envContent ++ ['\n']

/-- Modelled from the spec (§6, "Generated `.env` file"): the claimed
layout of the generated file — the two-line provenance header, a blank
line, then the serialized entries, terminated with a trailing newline. -/
def specWrittenFile (secretName envContent : Str) : Str :=
  generateEnvHeader secretName ++ '\n' :: '\n' :: envContent ++ ['\n']

/-- The fold that assigns a list of properties onto an object in order. -/
def assignAll {α : Type} (o : List (Str × α)) (l : List (Str × α)) :
    List (Str × α) :=
  l.foldl (fun a p => setProp a p.1 p.2) o

/-- The key/value pairs contributed by the valid lines of the input, in
line order (duplicates included). -/
def envPairs (content : Str) : List (Str × Str) :=
  (splitNl content).filterMap parseEnvLine

/-- Insertion-order key list with duplicates dropped at every later
occurrence (first occurrence keeps its position), starting from `ks`. -/
def dedupFrom (ks : List Str) : List Str → List Str :=
  List.foldl (fun ks k => if k ∈ ks then ks else ks ++ [k]) ks

/-- First-occurrence deduplication of a key list. -/
def dedupFirst (l : List Str) : List Str := dedupFrom [] l

/-! ### FlagValidator (src/lib.ts `toKebabCase`, `validateUnknownFlags`,
`isTemplateMode`, `validateNameTemplateConflict`) -/

/-- The regex class `[a-z]` (ASCII lowercase letters). -/
def isAsciiLower (c : Char) : Bool := 97 ≤ c.toNat && c.toNat ≤ 122

/-- The regex class `[A-Z]` (ASCII uppercase letters). -/
def isAsciiUpper (c : Char) : Bool := 65 ≤ c.toNat && c.toNat ≤ 90

/-- `String.prototype.toLowerCase` restricted to the ASCII range (the flag
names this is applied to are ASCII). -/
def jsToLower (c : Char) : Char :=
  if isAsciiUpper c then Char.ofNat (c.toNat + 32) else c

/-- The global regex replace `str.replace(/([a-z])([A-Z])/g, "$1-$2")`
(src/lib.ts line 4): scan left to right; a match consumes both characters
and resumes after them. -/
def kebabScan : Str → Str
  | [] => []
  | [c] => [c]
  | a :: b :: rest =>
    if isAsciiLower a && isAsciiUpper b then a :: '-' :: b :: kebabScan rest
    else a :: kebabScan (b :: rest)

/-- `toKebabCase` (src/lib.ts lines 3-5): hyphenate lower-to-upper
transitions, then lowercase. -/
def toKebabCase (s : Str) : Str := (kebabScan s).map jsToLower

/-- Modelled from the spec (§8, `toKebabCase` bullet): insert a hyphen at
every lowercase-to-uppercase transition (each adjacent pair inspected
independently), then lowercase the whole string. -/
def kebabSpecMark : Str → Str
  | [] => []
  | [c] => [c]
  | a :: b :: rest =>
    if isAsciiLower a && isAsciiUpper b then a :: '-' :: kebabSpecMark (b :: rest)
    else a :: kebabSpecMark (b :: rest)

/-- Modelled from the spec: the pairwise description of `toKebabCase`. -/
def kebabSpec (s : Str) : Str := (kebabSpecMark s).map jsToLower

/-- The sole fields of gunshi's `ArgSchema` read by `validateUnknownFlags`
(`short`); `type` is carried for fidelity of the schema tables. -/
structure ArgSchema where
  type : Str
  short : Option Str := none
deriving DecidableEq

/-- The fields of a gunshi `ArgToken` read by `validateUnknownFlags`:
its discriminator `kind` and optional option `name`. -/
structure ArgToken where
  kind : Str
  name : Option Str := none
deriving DecidableEq

/-- JS truthiness of a `string | undefined` value. -/
def truthyOptStr : Option Str → Bool
  | none => false
  | some s => !s.isEmpty

/-- JS truthiness of a `boolean | undefined` value. -/
def truthyOptBool : Option Bool → Bool
  | none => false
  | some b => b

/-- The known-option set of `validateUnknownFlags` (src/lib.ts lines
16-32): built-ins `help`/`h`/`version`/`v`, then, per schema entry in
`Object.entries` order, the declared name, its kebab-case form, and the
short alias when truthy. Modelled as the insertion-order list of the
added names (set lookup is membership). -/
def knownOptionNames (args : List (Str × ArgSchema)) : List Str :=
  (entriesJs args).foldl
    (fun s p =>
      s ++ [p.1, toKebabCase p.1] ++
        (if truthyOptStr p.2.short then [p.2.short.getD []] else []))
    ["help".toList, "h".toList, "version".toList, "v".toList]

/-- Strip the `no-` negation prefix (src/lib.ts line 38):
`name.startsWith("no-") ? name.slice(3) : name`. -/
def stripNoPrefix (nm : Str) : Str :=
  if nm.take 3 = "no-".toList then nm.drop 3 else nm

/-- The token loop of `validateUnknownFlags` (src/lib.ts lines 35-44):
return the error for the first option token whose stripped name is
unknown. -/
def checkTokens (known : List Str) : List ArgToken → Option Str
  | [] => none
  | t :: rest =>
    if t.kind = "option".toList ∧ truthyOptStr t.name = true then
      if known.contains (stripNoPrefix (t.name.getD [])) then
        checkTokens known rest
      else some ("Unknown option: --".toList ++ t.name.getD [])
    else checkTokens known rest

/-- `validateUnknownFlags` (src/lib.ts lines 11-47). -/
def validateUnknownFlags (tokens : List ArgToken)
    (args : List (Str × ArgSchema)) : Option Str :=
  checkTokens (knownOptionNames args) tokens

/-- An option token rejected by `validateUnknownFlags`: an option-kind
token with a truthy name whose `no-`-stripped form is not known. -/
def offendingToken (known : List Str) (t : ArgToken) : Bool :=
  decide (t.kind = "option".toList) && truthyOptStr t.name &&
    !known.contains (stripNoPrefix (t.name.getD []))

/-- The error message for an unknown option, built from the original
(non-stripped) token name. -/
def unknownOptionMsg (t : ArgToken) : Str :=
  "Unknown option: --".toList ++ t.name.getD []

/-- The flags record consumed by `isTemplateMode` and
`validateNameTemplateConflict` (src/lib.ts lines 52-68). -/
structure CmdFlags where
  name : Option Str := none
  template : Option Bool := none
  application : Option Str := none
  stage : Option Str := none
deriving DecidableEq

/-- `isTemplateMode` (src/lib.ts lines 52-58):
`Boolean(flags.template || flags.application || flags.stage)`. -/
def isTemplateMode (flags : CmdFlags) : Bool :=
  truthyOptBool flags.template || truthyOptStr flags.application ||
    truthyOptStr flags.stage

/-- `validateNameTemplateConflict` (src/lib.ts lines 63-77). -/
def validateNameTemplateConflict (flags : CmdFlags) : Option Str :=
  if truthyOptStr flags.name && isTemplateMode flags then
    some ("Cannot use --name with ".toList ++
      joinSep ", ".toList
        ((if truthyOptBool flags.template then ["--template".toList] else []) ++
          (if truthyOptStr flags.application then ["--application".toList]
            else []) ++
          (if truthyOptStr flags.stage then ["--stage".toList] else [])))
  else none

/-- The template/application/stage trio, for stating which conflicting
flags the error message lists. -/
inductive TrioFlag where
  | template
  | application
  | stage
deriving DecidableEq

/-- Whether a trio member is set (truthy) in the flags record. -/
def trioSet (flags : CmdFlags) : TrioFlag → Bool
  | .template => truthyOptBool flags.template
  | .application => truthyOptStr flags.application
  | .stage => truthyOptStr flags.stage

/-- The flag text of a trio member. -/
def trioName : TrioFlag → Str
  | .template => "--template".toList
  | .application => "--application".toList
  | .stage => "--stage".toList

/-! ### ConfigMerger (src/lib/config.ts `mergeWithConfig`) -/

/-- A JS value stored in a config record field: absent/`undefined`, a
boolean, or a string. -/
inductive JsVal where
  | undef
  | bool (b : Bool)
  | str (s : Str)
deriving DecidableEq

/-- A config record (`E2smConfig` / `Partial<E2smConfig>`), a JS object
in property-insertion order. -/
abbrev ConfigObj := List (Str × JsVal)

/-- The filter predicate of `mergeWithConfig` (src/lib/config.ts line 62):
`v !== undefined`. -/
def isDefined : JsVal → Bool
  | .undef => false
  | _ => true

/-- JS truthiness of a config value. -/
def truthy : JsVal → Bool
  | .undef => false
  | .bool b => b
  | .str s => !s.isEmpty

/-- The string carried by a `string`-typed config value. -/
def strOf : JsVal → Str
  | .str s => s
  | _ => []

/-- The `??` operator on `string | undefined` values. -/
def jsCoalesce (a b : JsVal) : JsVal := if a = JsVal.undef then b else a

/-- Object spread `{...o, ...src}` restricted to its effect on `o`: copy
`src`'s own enumerable properties, in `Object.entries` order, onto `o`. -/
def spreadInto (o src : ConfigObj) : ConfigObj := assignAll o (entriesJs src)

/-- `Object.fromEntries`: build an object by assigning each pair in
order. -/
def objectFromEntries (l : List (Str × JsVal)) : ConfigObj := assignAll [] l

/-- `mergeWithConfig` (src/lib/config.ts lines 59-64):
`{...config, ...Object.fromEntries(Object.entries(cliValues).filter(([, v]) => v !== undefined))}`. -/
def mergeWithConfig (cliValues config : ConfigObj) : ConfigObj :=
  spreadInto (spreadInto [] config)
    (objectFromEntries ((entriesJs cliValues).filter fun p => isDefined p.2))

/-- Field access `o[k]` on a config record: an absent property reads as
`undefined`. -/
def valOf (o : ConfigObj) (k : Str) : JsVal := (getProp o k).getD JsVal.undef

/-! ### The delete subcommand (src/commands/delete.ts) -/

/-- `Number.parseInt(s, 10)`: skip leading whitespace, read an optional
sign and the longest digit prefix; `none` models `NaN`. -/
def parseIntJs (s : Str) : Option Int :=
  let t := trimStart s
  let signAndRest : Int × Str :=
    match t with
    | '-' :: r => (-1, r)
    | '+' :: r => (1, r)
    | r => (1, r)
  let digits := signAndRest.2.takeWhile Char.isDigit
  if digits = [] then none
  else some (signAndRest.1 * (decVal digits : Int))

/-- The invalidity test the delete command applies to a provided
recovery-days value (src/commands/delete.ts line 111):
`Number.isNaN(parsed) || parsed < MIN_RECOVERY_DAYS || parsed > MAX_RECOVERY_DAYS`. -/
def invalidRecovery (s : Str) : Bool :=
  match parseIntJs s with
  | none => true
  | some n => decide (n < 7) || decide (30 < n)

/-- Decimal rendering of a natural number. -/
def natToStr (n : Nat) : Str := Nat.toDigits 10 n

/-- JS `String(x)` for the recovery-days number; `none` (`NaN`) renders
as `NaN`. -/
def numToStr : Option Int → Str
  | none => "NaN".toList
  | some n => if n < 0 then '-' :: natToStr (-n).toNat else natToStr n.toNat

/-- The observable steps of a `deleteCommand` run: external `aws`
invocations, `console.error`, `p.cancel` and `p.outro` messages (pure UI
such as intro/spinner text carries no information and is omitted). -/
inductive Event where
  | extCall (cmd : Str) (args : List Str)
  | consoleError (msg : Str)
  | cancelMsg (msg : Str)
  | outroMsg (msg : Str)
deriving DecidableEq

/-- How a run ends: `process.exit(code)` or normal completion. -/
inductive Outcome where
  | processExit (code : Nat)
  | finished
deriving DecidableEq

/-- Whether an event is an external process invocation. -/
def isExtCall : Event → Bool
  | .extCall _ _ => true
  | _ => false

/-- The environment's responses to the delete command's external calls
and interactive prompts: the `list-secrets` exec outcome (exit code,
stderr, and the parsed `SecretList` names), the secret selected in the
picker (`none` = cancel), the recovery-window text entered (`none` =
cancel), the confirm answer (`none` = cancel), and the `delete-secret`
exec outcome. -/
structure DeleteOracles where
  listExit : Nat
  listStderr : Str
  listSecrets : List Str
  selectName : Option Str
  recoveryText : Option Str
  confirmAnswer : Option Bool
  deleteExit : Nat
  deleteStderr : Str

/-- The arg schema of `deleteCommand` (src/commands/delete.ts lines
15-42), in declaration order; only the fields read by
`validateUnknownFlags` are carried. -/
def deleteArgs : List (Str × ArgSchema) :=
  [("profile".toList, ⟨"string".toList, some "p".toList⟩),
    ("region".toList, ⟨"string".toList, some "r".toList⟩),
    ("name".toList, ⟨"string".toList, some "n".toList⟩),
    ("recoveryDays".toList, ⟨"string".toList, some "d".toList⟩),
    ("force".toList, ⟨"boolean".toList, some "f".toList⟩)]

/-- The invalid-recovery-days message (src/commands/delete.ts lines
112-114). -/
def invalidRecoveryMsg (s : Str) : Str :=
  "Invalid recovery days: ".toList ++ s ++
    ". Must be between 7 and 30.".toList

/-- Step 4 of `deleteCommand` (lines 151-176): run
`aws secretsmanager delete-secret` and report the outcome. -/
def deleteStep4 (profileArgs regionArgs : List Str) (secretName : Str)
    (recoveryDays : Option Int) (o : DeleteOracles) (ev : List Event) :
    List Event × Outcome :=
  let ev2 := ev ++ [Event.extCall "aws".toList
    (["secretsmanager".toList, "delete-secret".toList, "--secret-id".toList,
      secretName, "--recovery-window-in-days".toList, numToStr recoveryDays] ++
      profileArgs ++ regionArgs)]
  if o.deleteExit ≠ 0 then
    (ev2 ++ [Event.cancelMsg ("Error: ".toList ++ o.deleteStderr)],
      Outcome.processExit 1)
  else
    (ev2 ++ [Event.outroMsg ("Secret '".toList ++ secretName ++
      "' has been scheduled for deletion (recoverable for ".toList ++
      numToStr recoveryDays ++ " days)".toList)], Outcome.finished)

/-- Step 3 of `deleteCommand` (lines 138-149): confirmation prompt unless
`--force`. -/
def deleteStep3 (profileArgs regionArgs : List Str) (secretName : Str)
    (recoveryDays : Option Int) (forceFlag : JsVal) (o : DeleteOracles)
    (ev : List Event) : List Event × Outcome :=
  if truthy forceFlag then
    deleteStep4 profileArgs regionArgs secretName recoveryDays o ev
  else
    match o.confirmAnswer with
    | some true => deleteStep4 profileArgs regionArgs secretName recoveryDays o ev
    | _ => (ev ++ [Event.cancelMsg "Operation cancelled".toList],
        Outcome.processExit 0)

/-- Step 2 of `deleteCommand` (lines 106-136): resolve the recovery
window, validating a provided flag against the [7, 30] bounds, or prompt
interactively. -/
def deleteStep2 (profileArgs regionArgs : List Str) (secretName : Str)
    (recoveryDaysFlag forceFlag : JsVal) (o : DeleteOracles)
    (ev : List Event) : List Event × Outcome :=
  if truthy recoveryDaysFlag then
    match parseIntJs (strOf recoveryDaysFlag) with
    | none =>
      (ev ++ [Event.cancelMsg (invalidRecoveryMsg (strOf recoveryDaysFlag))],
        Outcome.processExit 1)
    | some n =>
      if n < 7 ∨ 30 < n then
        (ev ++ [Event.cancelMsg (invalidRecoveryMsg (strOf recoveryDaysFlag))],
          Outcome.processExit 1)
      else deleteStep3 profileArgs regionArgs secretName (some n) forceFlag o ev
  else
    match o.recoveryText with
    | none => (ev ++ [Event.cancelMsg "Operation cancelled".toList],
        Outcome.processExit 0)
    | some txt =>
      deleteStep3 profileArgs regionArgs secretName (parseIntJs txt) forceFlag
        o ev

/-- The `run` handler of `deleteCommand` (src/commands/delete.ts lines
43-177), as a pure function from the parsed CLI values, the loaded
config, the raw tokens, and the environment's responses to the run's
event trace and exit outcome. -/
def deleteRun (values config : ConfigObj) (tokens : List ArgToken)
    (o : DeleteOracles) : List Event × Outcome :=
  match validateUnknownFlags tokens deleteArgs with
  | some err => ([Event.consoleError err], Outcome.processExit 1)
  | none =>
    let merged := mergeWithConfig values config
    let profile := valOf merged "profile".toList
    let region := valOf merged "region".toList
    let nameFlag := jsCoalesce (valOf values "name".toList)
      (valOf config "name".toList)
    let recoveryDaysFlag := valOf values "recoveryDays".toList
    let forceFlag := valOf values "force".toList
    let profileArgs := if truthy profile
      then ["--profile".toList, strOf profile] else []
    let regionArgs := if truthy region
      then ["--region".toList, strOf region] else []
    if truthy nameFlag then
      deleteStep2 profileArgs regionArgs (strOf nameFlag) recoveryDaysFlag
        forceFlag o []
    else
      let ev := [Event.extCall "aws".toList
        (["secretsmanager".toList, "list-secrets".toList] ++ profileArgs ++
          regionArgs)]
      if o.listExit ≠ 0 then
        (ev ++ [Event.cancelMsg ("Error: ".toList ++ o.listStderr)],
          Outcome.processExit 1)
      else if o.listSecrets = [] then
        (ev ++ [Event.cancelMsg "No secrets found".toList],
          Outcome.processExit 1)
      else
        match o.selectName with
        | none => (ev ++ [Event.cancelMsg "Operation cancelled".toList],
            Outcome.processExit 0)
        | some nm =>
          deleteStep2 profileArgs regionArgs nm recoveryDaysFlag forceFlag o ev

example : parseEnvContent "FOO=bar".toList = [("FOO".toList, "bar".toList)] := by decide
example : parseEnvContent "FOO=\"bar baz\"".toList = [("FOO".toList, "bar baz".toList)] := by
  decide
example : parseEnvContent "FOO=bar # c".toList = [("FOO".toList, "bar".toList)] := by decide
example : parseEnvContent "FOO=bar=baz".toList = [("FOO".toList, "bar=baz".toList)] := by decide
example : parseEnvContent "  FOO  =  bar  ".toList = [("FOO".toList, "bar".toList)] := by decide
example : parseEnvContent "# c1\n# c2".toList = [] := by decide
example : parseEnvContent "".toList = [] := by decide
example : jsonToEnv [("FOO".toList, "bar\"baz".toList)] = "FOO=\"bar\\\"baz\"".toList := by
  decide

/-! ### Basic lemmas about `dropWhile`, `trim`, `splitNl`, `joinSep` -/

lemma head?_dropWhile_not {p : Char → Bool} {s : List Char} {c : Char}
    (h : (s.dropWhile p).head? = some c) : p c = false := by
  induction s with
  | nil => simp [List.dropWhile] at h
  | cons a rest ih =>
    rw [List.dropWhile_cons] at h
    split at h
    · exact ih h
    · simp only [List.head?_cons, Option.some.injEq] at h
      subst h
      simpa using ‹¬p a = true›

lemma mem_dropWhile {p : Char → Bool} {s : List Char} {x : Char}
    (h : x ∈ s.dropWhile p) : x ∈ s := by
  induction s with
  | nil => simp [List.dropWhile] at h
  | cons a rest ih =>
    rw [List.dropWhile_cons] at h
    split at h
    · exact List.mem_cons_of_mem _ (ih h)
    · exact h

lemma dropWhile_isSuffix (p : Char → Bool) (s : List Char) :
    s.dropWhile p <:+ s := by
  induction s with
  | nil => exact List.suffix_refl _
  | cons a rest ih =>
    rw [List.dropWhile_cons]
    split
    · exact ih.trans (List.suffix_cons a rest)
    · exact List.suffix_refl _

lemma dropWhile_eq_self_of_head {p : Char → Bool} {s : List Char} {c : Char}
    (hh : s.head? = some c) (hc : p c = false) : s.dropWhile p = s := by
  cases s with
  | nil => rfl
  | cons a rest =>
    simp only [List.head?_cons, Option.some.injEq] at hh
    subst hh
    rw [List.dropWhile_cons, if_neg (by simp [hc])]

lemma mem_trimStart {s : Str} {x : Char} (h : x ∈ trimStart s) : x ∈ s :=
  mem_dropWhile h

lemma mem_trimEnd {s : Str} {x : Char} (h : x ∈ trimEnd s) : x ∈ s := by
  unfold trimEnd at h
  rw [List.mem_reverse] at h
  exact List.mem_reverse.mp (mem_dropWhile h)

lemma mem_trim {s : Str} {x : Char} (h : x ∈ trim s) : x ∈ s :=
  mem_trimStart (mem_trimEnd h)

lemma trimEnd_isPrefix (s : Str) : trimEnd s <+: s := by
  unfold trimEnd
  have h := dropWhile_isSuffix jsWhitespace s.reverse
  have h2 : (s.reverse.dropWhile jsWhitespace).reverse <+: s.reverse.reverse :=
    List.reverse_prefix.mpr h
  rwa [List.reverse_reverse] at h2

lemma trimStart_isSuffix (s : Str) : trimStart s <:+ s :=
  dropWhile_isSuffix jsWhitespace s

lemma head?_of_isPrefix {l₁ l₂ : Str} (h : l₁ <+: l₂) (hne : l₁ ≠ []) :
    l₂.head? = l₁.head? := by
  obtain ⟨t, rfl⟩ := h
  cases l₁ with
  | nil => exact absurd rfl hne
  | cons a r => simp

lemma head?_trimStart_not_ws {s : Str} {c : Char}
    (h : (trimStart s).head? = some c) : jsWhitespace c = false :=
  head?_dropWhile_not h

lemma getLast?_trimEnd_not_ws {s : Str} {c : Char}
    (h : (trimEnd s).getLast? = some c) : jsWhitespace c = false := by
  unfold trimEnd at h
  rw [List.getLast?_reverse] at h
  exact head?_dropWhile_not h

lemma head?_trim_not_ws {s : Str} {c : Char}
    (h : (trim s).head? = some c) : jsWhitespace c = false := by
  have hne : trim s ≠ [] := by intro he; rw [he] at h; simp at h
  have hpre := trimEnd_isPrefix (trimStart s)
  have := head?_of_isPrefix hpre hne
  unfold trim at h
  rw [← this] at h
  exact head?_trimStart_not_ws h

lemma getLast?_trim_not_ws {s : Str} {c : Char}
    (h : (trim s).getLast? = some c) : jsWhitespace c = false :=
  getLast?_trimEnd_not_ws h

lemma trimStart_eq_self {s : Str} {c : Char} (hh : s.head? = some c)
    (hc : jsWhitespace c = false) : trimStart s = s :=
  dropWhile_eq_self_of_head hh hc

lemma trimEnd_eq_self {s : Str} {c : Char} (hh : s.getLast? = some c)
    (hc : jsWhitespace c = false) : trimEnd s = s := by
  unfold trimEnd
  rw [← List.head?_reverse] at hh
  rw [dropWhile_eq_self_of_head hh hc, List.reverse_reverse]

lemma trim_eq_self {s : Str} {c d : Char} (hh : s.head? = some c)
    (hc : jsWhitespace c = false) (hl : s.getLast? = some d)
    (hd : jsWhitespace d = false) : trim s = s := by
  unfold trim
  rw [trimStart_eq_self hh hc, trimEnd_eq_self hl hd]

lemma trim_nil : trim [] = [] := rfl

lemma trim_idem (s : Str) : trim (trim s) = trim s := by
  cases he : trim s with
  | nil => exact trim_nil
  | cons a r =>
    have hh : (trim s).head? = some a := by rw [he]; rfl
    have hl : ∃ d, (trim s).getLast? = some d := by
      rw [he]; exact ⟨(a :: r).getLast (by simp), List.getLast?_eq_getLast _ _⟩
    obtain ⟨d, hd⟩ := hl
    rw [← he]
    exact trim_eq_self hh (head?_trim_not_ws hh) hd (getLast?_trim_not_ws hd)

lemma splitNl_ne_nil (s : Str) : splitNl s ≠ [] := by
  induction s with
  | nil => simp [splitNl]
  | cons c rest ih =>
    rw [splitNl]
    split
    · simp
    · cases h : splitNl rest with
      | nil => simp
      | cons r rs => simp

lemma splitNl_no_nl {s : Str} (h : '\n' ∉ s) : splitNl s = [s] := by
  induction s with
  | nil => rfl
  | cons c rest ih =>
    have hc : ¬c = '\n' := fun he => h (he ▸ List.mem_cons_self c rest)
    have hrest : '\n' ∉ rest := fun hm => h (List.mem_cons_of_mem c hm)
    rw [splitNl, if_neg hc, ih hrest]

lemma mem_splitNl_no_nl {s : Str} : ∀ piece ∈ splitNl s, '\n' ∉ piece := by
  induction s with
  | nil =>
    intro piece hp
    simp only [splitNl, List.mem_singleton] at hp
    simp [hp]
  | cons c rest ih =>
    intro piece hp
    rw [splitNl] at hp
    by_cases hc : c = '\n'
    · rw [if_pos hc] at hp
      rcases List.mem_cons.mp hp with h | h
      · simp [h]
      · exact ih piece h
    · rw [if_neg hc] at hp
      cases h : splitNl rest with
      | nil => exact absurd h (splitNl_ne_nil rest)
      | cons r rs =>
        rw [h] at hp
        rcases List.mem_cons.mp hp with h2 | h2
        · subst h2
          intro hm
          rcases List.mem_cons.mp hm with h3 | h3
          · exact hc h3.symm
          · exact ih r (h ▸ List.mem_cons_self r rs) h3
        · exact ih piece (h ▸ List.mem_cons_of_mem r h2)

lemma splitNl_append_cons {xs : Str} (ys : Str) (h : '\n' ∉ xs) :
    splitNl (xs ++ '\n' :: ys) = xs :: splitNl ys := by
  induction xs with
  | nil => simp [splitNl]
  | cons c rest ih =>
    have hc : ¬c = '\n' := fun he => h (he ▸ List.mem_cons_self c rest)
    have hrest : '\n' ∉ rest := fun hm => h (List.mem_cons_of_mem c hm)
    rw [List.cons_append, splitNl, if_neg hc, ih hrest]

lemma splitNl_joinSep {ls : List Str} (hne : ls ≠ [])
    (h : ∀ s ∈ ls, '\n' ∉ s) : splitNl (joinSep ['\n'] ls) = ls := by
  induction ls with
  | nil => exact absurd rfl hne
  | cons s rest ih =>
    cases rest with
    | nil => exact splitNl_no_nl (h s (List.mem_singleton.mpr rfl))
    | cons s2 r2 =>
      have hs : '\n' ∉ s := h s (List.mem_cons_self _ _)
      have hrest : ∀ t ∈ s2 :: r2, '\n' ∉ t :=
        fun t ht => h t (List.mem_cons_of_mem s ht)
      have hj : joinSep ['\n'] (s :: s2 :: r2) =
          s ++ '\n' :: joinSep ['\n'] (s2 :: r2) := by
        rw [joinSep, List.append_assoc]
        · rfl
        · exact List.cons_ne_nil _ _
      rw [hj, splitNl_append_cons _ hs, ih (List.cons_ne_nil _ _) hrest]

/-! ### Lemmas about `setProp`, `getProp`, `entriesJs` -/

lemma getProp_setProp {α : Type} (o : List (Str × α)) (k k' : Str) (v : α) :
    getProp (setProp o k v) k' = if k = k' then some v else getProp o k' := by
  induction o with
  | nil =>
    by_cases h : k = k' <;> simp [setProp, getProp, h]
  | cons p rest ih =>
    obtain ⟨pk, pv⟩ := p
    rw [setProp]
    by_cases h1 : pk = k
    · rw [if_pos h1]
      by_cases h2 : k = k'
      · simp [getProp, h1, h2]
      · have : ¬pk = k' := fun he => h2 (h1 ▸ he)
        simp [getProp, this, h2]
    · rw [if_neg h1]
      by_cases h2 : pk = k'
      · have : ¬k = k' := fun he => h1 (by rw [h2, he])
        simp [getProp, h2, this]
      · simp [getProp, h2, ih]

lemma keys_setProp {α : Type} (o : List (Str × α)) (k : Str) (v : α) :
    (setProp o k v).map Prod.fst =
      if k ∈ o.map Prod.fst then o.map Prod.fst else o.map Prod.fst ++ [k] := by
  induction o with
  | nil => simp [setProp]
  | cons p rest ih =>
    obtain ⟨pk, pv⟩ := p
    rw [setProp]
    by_cases h1 : pk = k
    · subst h1
      rw [if_pos rfl]
      have hk : pk ∈ ((pk, pv) :: rest).map Prod.fst := by
        rw [List.map_cons]; exact List.mem_cons_self _ _
      rw [if_pos hk]
      rfl
    · have hne : ¬k = pk := fun he => h1 he.symm
      rw [if_neg h1]
      by_cases h2 : k ∈ rest.map Prod.fst
      · have hk : k ∈ ((pk, pv) :: rest).map Prod.fst := by
          rw [List.map_cons]; exact List.mem_cons_of_mem _ h2
        rw [if_pos hk, List.map_cons, List.map_cons, ih, if_pos h2]
      · have hk : k ∉ ((pk, pv) :: rest).map Prod.fst := by
          rw [List.map_cons]
          intro hm
          rcases List.mem_cons.mp hm with h3 | h3
          · exact hne h3
          · exact h2 h3
        rw [if_neg hk, List.map_cons, List.map_cons, ih, if_neg h2,
          List.cons_append]

lemma setProp_eq_append {α : Type} {o : List (Str × α)} {k : Str} (v : α)
    (h : k ∉ o.map Prod.fst) : setProp o k v = o ++ [(k, v)] := by
  induction o with
  | nil => rfl
  | cons p rest ih =>
    obtain ⟨pk, pv⟩ := p
    simp only [List.map_cons, List.mem_cons] at h
    push_neg at h
    rw [setProp, if_neg (fun he => h.1 he.symm), ih h.2, List.cons_append]

lemma mem_setProp {α : Type} {o : List (Str × α)} {k : Str} {v : α} {p : Str × α}
    (h : p ∈ setProp o k v) : p = (k, v) ∨ p ∈ o := by
  induction o with
  | nil => simpa [setProp] using h
  | cons q rest ih =>
    obtain ⟨qk, qv⟩ := q
    rw [setProp] at h
    split at h
    · rcases List.mem_cons.mp h with h1 | h1
      · left; rw [h1]; rw [‹qk = k›]
      · right; exact List.mem_cons_of_mem _ h1
    · rcases List.mem_cons.mp h with h1 | h1
      · right; exact h1 ▸ List.mem_cons_self _ _
      · rcases ih h1 with h2 | h2
        · exact Or.inl h2
        · exact Or.inr (List.mem_cons_of_mem _ h2)

lemma nodupKeys_setProp {α : Type} {o : List (Str × α)} {k : Str} {v : α}
    (h : (o.map Prod.fst).Nodup) : ((setProp o k v).map Prod.fst).Nodup := by
  rw [keys_setProp]
  split
  · exact h
  · exact List.Nodup.append h (List.nodup_singleton k)
      (List.disjoint_singleton.mpr ‹k ∉ o.map Prod.fst›)

lemma getProp_append {α : Type} (a b : List (Str × α)) (k : Str) :
    getProp (a ++ b) k =
      match getProp a k with
      | some v => some v
      | none => getProp b k := by
  induction a with
  | nil => simp [getProp]
  | cons p rest ih =>
    obtain ⟨pk, pv⟩ := p
    by_cases h : pk = k <;> simp [getProp, h, ih]

lemma getProp_eq_some_iff {α : Type} {o : List (Str × α)}
    (h : (o.map Prod.fst).Nodup) (k : Str) (v : α) :
    getProp o k = some v ↔ (k, v) ∈ o := by
  induction o with
  | nil => simp [getProp]
  | cons p rest ih =>
    obtain ⟨pk, pv⟩ := p
    rw [List.map_cons, List.nodup_cons] at h
    rw [getProp]
    by_cases he : pk = k
    · subst he
      rw [if_pos rfl]
      constructor
      · intro hv
        rw [Option.some.injEq] at hv
        exact hv ▸ List.mem_cons_self _ _
      · intro hv
        rcases List.mem_cons.mp hv with hv | hv
        · rw [Prod.mk.injEq] at hv
          rw [hv.2]
        · exact absurd (List.mem_map_of_mem Prod.fst hv) h.1
    · rw [if_neg he, ih h.2]
      constructor
      · intro hv
        exact List.mem_cons_of_mem _ hv
      · intro hv
        rcases List.mem_cons.mp hv with hv | hv
        · rw [Prod.mk.injEq] at hv
          exact absurd hv.1.symm he
        · exact hv

lemma getProp_eq_none_iff {α : Type} (o : List (Str × α)) (k : Str) :
    getProp o k = none ↔ k ∉ o.map Prod.fst := by
  induction o with
  | nil => simp [getProp]
  | cons p rest ih =>
    obtain ⟨pk, pv⟩ := p
    rw [getProp, List.map_cons]
    by_cases he : pk = k
    · subst he
      rw [if_pos rfl]
      constructor
      · intro hv
        exact Option.noConfusion hv
      · intro hv
        exact absurd (List.mem_cons_self _ _) hv
    · rw [if_neg he, ih]
      constructor
      · intro hnk hm
        rcases List.mem_cons.mp hm with hm | hm
        · exact he hm.symm
        · exact hnk hm
      · intro hnk hm
        exact hnk (List.mem_cons_of_mem _ hm)

lemma nodupKeys_of_perm {α : Type} {o o' : List (Str × α)}
    (h : List.Perm o o') (hn : (o.map Prod.fst).Nodup) :
    (o'.map Prod.fst).Nodup :=
  (h.map Prod.fst).nodup_iff.mp hn

lemma getProp_eq_of_perm {α : Type} {o o' : List (Str × α)}
    (h : List.Perm o o') (hn : (o.map Prod.fst).Nodup) (k : Str) :
    getProp o k = getProp o' k := by
  have hn' := nodupKeys_of_perm h hn
  cases hv : getProp o k with
  | none =>
    rw [getProp_eq_none_iff] at hv
    have hm : k ∉ o'.map Prod.fst := fun hm => hv ((h.map Prod.fst).mem_iff.mpr hm)
    exact ((getProp_eq_none_iff o' k).mpr hm).symm
  | some v =>
    rw [getProp_eq_some_iff hn] at hv
    exact ((getProp_eq_some_iff hn' k v).mpr (h.mem_iff.mp hv)).symm

lemma entriesJs_perm {α : Type} (o : List (Str × α)) : List.Perm (entriesJs o) o := by
  unfold entriesJs
  have h1 : List.Perm
      (List.insertionSort
        (fun p q => ((arrayIndexOf p.1).getD 0) ≤ ((arrayIndexOf q.1).getD 0))
        (o.filter fun p => (arrayIndexOf p.1).isSome))
      (o.filter fun p => (arrayIndexOf p.1).isSome) :=
    List.perm_insertionSort _ _
  exact (h1.append_right _).trans (List.filter_append_perm _ o)

lemma assignAll_eq_append {α : Type} {l : List (Str × α)} :
    ∀ {acc : List (Str × α)}, (∀ k ∈ l.map Prod.fst, k ∉ acc.map Prod.fst) →
      (l.map Prod.fst).Nodup → assignAll acc l = acc ++ l := by
  induction l with
  | nil => intro acc _ _; simp [assignAll]
  | cons p rest ih =>
    intro acc hdisj hnd
    obtain ⟨pk, pv⟩ := p
    rw [List.map_cons, List.nodup_cons] at hnd
    have hp : pk ∉ acc.map Prod.fst :=
      hdisj pk (List.map_cons Prod.fst _ _ ▸ List.mem_cons_self _ _)
    have step : assignAll acc ((pk, pv) :: rest) =
        assignAll (acc ++ [(pk, pv)]) rest := by
      rw [assignAll, List.foldl_cons, ← assignAll]
      rw [setProp_eq_append pv hp]
    rw [step, ih ?_ hnd.2, List.append_assoc]
    · rfl
    · intro k hk
      rw [List.map_append]
      intro hm
      rcases List.mem_append.mp hm with hm | hm
      · exact hdisj k (List.map_cons Prod.fst _ _ ▸ List.mem_cons_of_mem _ hk) hm
      · simp only [List.map_cons, List.map_nil, List.mem_singleton] at hm
        exact hnd.1 (hm ▸ hk)

lemma assignAll_nil_eq {α : Type} {l : List (Str × α)}
    (hnd : (l.map Prod.fst).Nodup) : assignAll [] l = l := by
  rw [assignAll_eq_append (fun k _ hm => by simp at hm) hnd]
  rfl

lemma getProp_assignAll {α : Type} (l : List (Str × α)) :
    ∀ (acc : List (Str × α)) (k : Str),
      getProp (assignAll acc l) k =
        match getProp l.reverse k with
        | some v => some v
        | none => getProp acc k := by
  induction l with
  | nil => intro acc k; simp [assignAll, getProp]
  | cons p rest ih =>
    intro acc k
    obtain ⟨pk, pv⟩ := p
    have step : assignAll acc ((pk, pv) :: rest) =
        assignAll (setProp acc pk pv) rest := rfl
    rw [step, ih]
    rw [List.reverse_cons, getProp_append]
    cases getProp rest.reverse k with
    | some v => rfl
    | none =>
      simp only
      rw [getProp_setProp]
      by_cases he : pk = k <;> simp [getProp, he]

/-! ### Facts about `parseEnvLine` and `parseEnvContent` -/

lemma foldl_lines_eq_assignAll (lines : List Str) :
    ∀ acc : EnvObj,
      lines.foldl
        (fun o line =>
          match parseEnvLine line with
          | some (k, v) => setProp o k v
          | none => o) acc =
      assignAll acc (lines.filterMap parseEnvLine) := by
  induction lines with
  | nil => intro acc; rfl
  | cons l rest ih =>
    intro acc
    rw [List.foldl_cons, List.filterMap_cons]
    cases hl : parseEnvLine l with
    | none => exact ih acc
    | some p =>
      obtain ⟨k, v⟩ := p
      rw [ih (setProp acc k v)]
      rfl

lemma parseEnvContent_eq_assignAll (content : Str) :
    parseEnvContent content = assignAll [] (envPairs content) :=
  foldl_lines_eq_assignAll (splitNl content) []

lemma idxOf?_not_mem_take {c : Char} {s : Str} :
    ∀ {i : Nat}, idxOf? c s = some i → c ∉ s.take i := by
  induction s with
  | nil => intro i h; simp [idxOf?] at h
  | cons x rest ih =>
    intro i h
    rw [idxOf?] at h
    split at h
    · rw [Option.some.injEq] at h
      subst h
      simp
    · cases hj : idxOf? c rest with
      | none => rw [hj] at h; simp at h
      | some j =>
        rw [hj] at h
        simp only [Option.map_some', Option.some.injEq] at h
        subst h
        rw [List.take_succ_cons]
        intro hm
        rcases List.mem_cons.mp hm with hm | hm
        · exact ‹¬x = c› hm.symm
        · exact ih hj hm

lemma mem_processValue {v : Str} {c : Char} (h : c ∈ processValue v) :
    c ∈ v := by
  rw [processValue] at h
  split at h
  · exact (List.IsSuffix.subset (List.drop_suffix 1 v))
      (List.dropLast_subset _ h)
  · rw [stripInlineComment] at h
    cases hi : idxOf? '#' v with
    | none => rw [hi] at h; exact h
    | some i =>
      rw [hi] at h
      exact (List.take_subset i v) (mem_trim h)

lemma parseEnvLine_props {line k v : Str}
    (h : parseEnvLine line = some (k, v)) :
    k ≠ [] ∧ trim k = k ∧ '=' ∉ k ∧ k.head? ≠ some '#' ∧
      (∀ c ∈ k, c ∈ line) ∧ (∀ c ∈ v, c ∈ line) := by
  rw [parseEnvLine] at h
  split at h
  · exact Option.noConfusion h
  split at h
  · exact Option.noConfusion h
  rename_i hne hhash
  cases hi : idxOf? '=' (trim line) with
  | none => rw [hi] at h; exact Option.noConfusion h
  | some i =>
    rw [hi] at h
    simp only at h
    split at h
    · exact Option.noConfusion h
    rename_i hkne
    rw [Option.some.injEq, Prod.mk.injEq] at h
    obtain ⟨hk, hv⟩ := h
    subst hk
    subst hv
    refine ⟨hkne, trim_idem _, ?_, ?_, ?_, ?_⟩
    · intro hm
      exact idxOf?_not_mem_take hi (mem_trim hm)
    · -- the key starts with the first character of the trimmed line,
      -- which is not '#'
      intro hh
      have hi1 : i ≠ 0 := by
        intro h0
        subst h0
        exact hkne (by rw [List.take_zero]; rfl)
      have htne : trim line ≠ [] := hne
      have hth : ∃ c0, (trim line).head? = some c0 := by
        cases ht : (trim line).head? with
        | none => exact absurd (List.head?_eq_none_iff.mp ht) htne
        | some c0 => exact ⟨c0, rfl⟩
      obtain ⟨c0, hc0⟩ := hth
      have hc0ws : jsWhitespace c0 = false := head?_trim_not_ws hc0
      have htake_h : ((trim line).take i).head? = some c0 := by
        cases hl : trim line with
        | nil => exact absurd hl htne
        | cons a r =>
          rw [hl] at hc0
          simp only [List.head?_cons, Option.some.injEq] at hc0
          cases i with
          | zero => exact absurd rfl hi1
          | succ n =>
            rw [List.take_succ_cons, List.head?_cons, hc0]
      have hstart : trimStart ((trim line).take i) = (trim line).take i :=
        trimStart_eq_self htake_h hc0ws
      have hkpre : trim ((trim line).take i) <+: (trim line).take i := by
        rw [trim, hstart]
        exact trimEnd_isPrefix _
      have hkh : ((trim line).take i).head? =
          (trim ((trim line).take i)).head? :=
        head?_of_isPrefix hkpre hkne
      rw [← hkh, htake_h] at hh
      rw [Option.some.injEq] at hh
      subst hh
      exact hhash hc0
    · intro c hm
      exact mem_trim ((List.take_subset i (trim line)) (mem_trim hm))
    · intro c hm
      exact mem_trim ((List.drop_subset (i + 1) (trim line))
        (mem_trim (mem_processValue hm)))

lemma mem_assignAll {α : Type} {l : List (Str × α)} :
    ∀ {acc : List (Str × α)} {p : Str × α},
      p ∈ assignAll acc l → p ∈ acc ∨ p ∈ l := by
  induction l with
  | nil => intro acc p h; exact Or.inl h
  | cons q rest ih =>
    intro acc p h
    have step : assignAll acc (q :: rest) =
        assignAll (setProp acc q.1 q.2) rest := rfl
    rw [step] at h
    rcases ih h with h1 | h1
    · rcases mem_setProp h1 with h2 | h2
      · right
        rw [h2]
        exact List.mem_cons_self _ _
      · exact Or.inl h2
    · exact Or.inr (List.mem_cons_of_mem _ h1)

lemma nodupKeys_assignAll {α : Type} {l : List (Str × α)} :
    ∀ {acc : List (Str × α)}, (acc.map Prod.fst).Nodup →
      ((assignAll acc l).map Prod.fst).Nodup := by
  induction l with
  | nil => intro acc h; exact h
  | cons q rest ih =>
    intro acc h
    exact ih (nodupKeys_setProp h)

lemma keys_assignAll {α : Type} {l : List (Str × α)} :
    ∀ {acc : List (Str × α)},
      (assignAll acc l).map Prod.fst =
        dedupFrom (acc.map Prod.fst) (l.map Prod.fst) := by
  induction l with
  | nil => intro acc; rfl
  | cons q rest ih =>
    intro acc
    have step : assignAll acc (q :: rest) =
        assignAll (setProp acc q.1 q.2) rest := rfl
    rw [step, ih, List.map_cons]
    have hd : dedupFrom (acc.map Prod.fst) (q.1 :: rest.map Prod.fst) =
        dedupFrom (if q.1 ∈ acc.map Prod.fst then acc.map Prod.fst
          else acc.map Prod.fst ++ [q.1]) (rest.map Prod.fst) := rfl
    rw [hd, keys_setProp]

/-- Every entry of `parseEnvContent`'s result comes from a valid line:
its key is nonempty, trimmed, free of `=`, does not start with `#`, and
key and value contain no line feed. -/
lemma parseEnvContent_entry_props {content : Str} {p : Str × Str}
    (h : p ∈ parseEnvContent content) :
    p.1 ≠ [] ∧ trim p.1 = p.1 ∧ '=' ∉ p.1 ∧ p.1.head? ≠ some '#' ∧
      '\n' ∉ p.1 ∧ '\n' ∉ p.2 := by
  rw [parseEnvContent_eq_assignAll] at h
  rcases mem_assignAll h with h1 | h1
  · simp at h1
  · rw [envPairs] at h1
    rw [List.mem_filterMap] at h1
    obtain ⟨line, hline, hparse⟩ := h1
    have hnl : '\n' ∉ line := mem_splitNl_no_nl line hline
    obtain ⟨p1, p2⟩ := p
    obtain ⟨h1, h2, h3, h4, h5, h6⟩ := parseEnvLine_props hparse
    exact ⟨h1, h2, h3, h4, fun hm => hnl (h5 _ hm), fun hm => hnl (h6 _ hm)⟩

lemma nodupKeys_parseEnvContent (content : Str) :
    ((parseEnvContent content).map Prod.fst).Nodup := by
  rw [parseEnvContent_eq_assignAll]
  exact nodupKeys_assignAll (by simp)

/-! ### Round-trip: parsing a serialized entry -/

lemma escapeQuotes_eq_self {v : Str} (h : '"' ∉ v) : escapeQuotes v = v := by
  induction v with
  | nil => rfl
  | cons c rest ih =>
    have hc : ¬c = '"' := fun he => h (he ▸ List.mem_cons_self c rest)
    have hrest : '"' ∉ rest := fun hm => h (List.mem_cons_of_mem c hm)
    rw [escapeQuotes] at ih ⊢
    rw [List.flatMap_cons, if_neg hc, ih hrest]
    rfl

lemma idxOf?_append_first {c : Char} {xs : Str} (ys : Str) (h : c ∉ xs) :
    idxOf? c (xs ++ c :: ys) = some xs.length := by
  induction xs with
  | nil => simp [idxOf?]
  | cons x rest ih =>
    have hx : ¬x = c := fun he => h (he ▸ List.mem_cons_self x rest)
    have hrest : c ∉ rest := fun hm => h (List.mem_cons_of_mem x hm)
    rw [List.cons_append, idxOf?, if_neg hx, ih hrest]
    rfl

lemma head?_append_of_ne_nil {l₁ l₂ : Str} (h : l₁ ≠ []) :
    (l₁ ++ l₂).head? = l₁.head? := by
  cases l₁ with
  | nil => exact absurd rfl h
  | cons a r => rfl

lemma filterMap_eq_self_of {α : Type} {f : α → Option α} {l : List α}
    (h : ∀ x ∈ l, f x = some x) : l.filterMap f = l := by
  induction l with
  | nil => rfl
  | cons a rest ih =>
    rw [List.filterMap_cons, h a (List.mem_cons_self _ _),
      ih fun x hx => h x (List.mem_cons_of_mem a hx)]

lemma head?_trim_self_not_ws {k : Str} (hne : k ≠ []) (ht : trim k = k) :
    ∃ c, k.head? = some c ∧ jsWhitespace c = false := by
  cases hh : k.head? with
  | none => exact absurd (List.head?_eq_none_iff.mp hh) hne
  | some c => exact ⟨c, rfl, head?_trim_not_ws (ht.symm ▸ hh)⟩

lemma getLast?_trim_self_not_ws {k : Str} (hne : k ≠ []) (ht : trim k = k) :
    ∃ c, k.getLast? = some c ∧ jsWhitespace c = false := by
  cases hh : k.getLast? with
  | none => exact absurd (List.getLast?_eq_none_iff.mp hh) hne
  | some c => exact ⟨c, rfl, getLast?_trim_not_ws (ht.symm ▸ hh)⟩

/-- A serialized entry `KEY="VALUE"` parses back to exactly its key and
(quote-free) value. -/
lemma parseEnvLine_envEntryLine {k v : Str} (hkne : k ≠ [])
    (hktrim : trim k = k) (hkeq : '=' ∉ k) (hkhash : k.head? ≠ some '#')
    (hv : '"' ∉ v) :
    parseEnvLine (envEntryLine (k, v)) = some (k, v) := by
  have hline : envEntryLine (k, v) = k ++ '=' :: '"' :: (v ++ ['"']) := by
    rw [envEntryLine, escapeQuotes_eq_self hv]
  obtain ⟨c0, hc0, hc0ws⟩ := head?_trim_self_not_ws hkne hktrim
  have hlineh : (k ++ '=' :: '"' :: (v ++ ['"'])).head? = some c0 := by
    rw [head?_append_of_ne_nil hkne, hc0]
  have hassoc : k ++ '=' :: '"' :: (v ++ ['"']) =
      (k ++ '=' :: '"' :: v) ++ ['"'] := by
    rw [List.append_assoc]
    rfl
  have hlinel : (k ++ '=' :: '"' :: (v ++ ['"'])).getLast? = some '"' := by
    rw [hassoc, List.getLast?_concat]
  have hquot : jsWhitespace '"' = false := by decide
  have htrimline : trim (k ++ '=' :: '"' :: (v ++ ['"'])) =
      k ++ '=' :: '"' :: (v ++ ['"']) :=
    trim_eq_self hlineh hc0ws hlinel hquot
  have hidx : idxOf? '=' (k ++ '=' :: '"' :: (v ++ ['"'])) = some k.length :=
    idxOf?_append_first _ hkeq
  have htake : (k ++ '=' :: '"' :: (v ++ ['"'])).take k.length = k :=
    List.take_left k _
  have hdrop : (k ++ '=' :: '"' :: (v ++ ['"'])).drop (k.length + 1) =
      '"' :: (v ++ ['"']) := by
    have h2 : k ++ '=' :: '"' :: (v ++ ['"']) =
        (k ++ ['=']) ++ '"' :: (v ++ ['"']) := by
      rw [List.append_assoc]
      rfl
    have h3 : k.length + 1 = (k ++ ['=']).length := by
      rw [List.length_append, List.length_singleton]
    rw [h2, h3, List.drop_left]
  have hcons : '"' :: (v ++ ['"']) = ('"' :: v) ++ ['"'] := rfl
  have hlast : ('"' :: (v ++ ['"'])).getLast? = some '"' := by
    rw [hcons, List.getLast?_concat]
  have hqtok : trim ('"' :: (v ++ ['"'])) = '"' :: (v ++ ['"']) :=
    trim_eq_self (c := '"') (d := '"') rfl hquot hlast hquot
  have hquoted : isQuotedVal ('"' :: (v ++ ['"'])) = true := by
    rw [isQuotedVal, hlast]
    simp
  have hproc : processValue ('"' :: (v ++ ['"'])) = v := by
    rw [processValue, if_pos hquoted]
    have hd1 : ('"' :: (v ++ ['"'])).drop 1 = v ++ ['"'] := rfl
    rw [hd1]
    exact List.dropLast_concat
  rw [parseEnvLine, hline, htrimline]
  rw [if_neg (by
    intro he
    rw [he] at hlineh
    exact Option.noConfusion hlineh)]
  rw [if_neg (by
    rw [hlineh]
    intro he
    rw [Option.some.injEq] at he
    exact hkhash (he ▸ hc0))]
  rw [hidx]
  simp only [htake, hdrop, hktrim, hqtok, hproc]
  rw [if_neg hkne]

lemma mem_escapeQuotes {v : Str} {c : Char} (h : c ∈ escapeQuotes v) :
    c = '\\' ∨ c = '"' ∨ c ∈ v := by
  induction v with
  | nil => simp [escapeQuotes] at h
  | cons a rest ih =>
    rw [escapeQuotes, List.flatMap_cons] at h
    rcases List.mem_append.mp h with h1 | h1
    · split at h1
      · rcases List.mem_cons.mp h1 with h2 | h2
        · exact Or.inl h2
        · rw [List.mem_singleton] at h2
          exact Or.inr (Or.inl h2)
      · rw [List.mem_singleton] at h1
        exact Or.inr (Or.inr (h1 ▸ List.mem_cons_self _ _))
    · rcases ih h1 with h2 | h2 | h2
      · exact Or.inl h2
      · exact Or.inr (Or.inl h2)
      · exact Or.inr (Or.inr (List.mem_cons_of_mem _ h2))

lemma no_nl_envEntryLine {p : Str × Str} (hk : '\n' ∉ p.1)
    (hv : '\n' ∉ p.2) : '\n' ∉ envEntryLine p := by
  obtain ⟨k, v⟩ := p
  rw [envEntryLine]
  intro hm
  rcases List.mem_append.mp hm with h1 | h1
  · exact hk h1
  · rcases List.mem_cons.mp h1 with h2 | h2
    · exact absurd h2 (by decide)
    rcases List.mem_cons.mp h2 with h3 | h3
    · exact absurd h3 (by decide)
    rcases List.mem_append.mp h3 with h4 | h4
    · rcases mem_escapeQuotes h4 with h5 | h5 | h5
      · exact absurd h5 (by decide)
      · exact absurd h5 (by decide)
      · exact hv h5
    · rw [List.mem_singleton] at h4
      exact absurd h4 (by decide)

lemma parseEnvContent_nil : parseEnvContent [] = [] := by decide

/-- Re-parsing the serialization of a well-formed mapping whose values
contain no double quote gives back exactly the `Object.entries` view of
the mapping. -/
lemma parseEnvContent_jsonToEnv {m : EnvObj}
    (hgood : ∀ p ∈ m, p.1 ≠ [] ∧ trim p.1 = p.1 ∧ '=' ∉ p.1 ∧
      p.1.head? ≠ some '#' ∧ '\n' ∉ p.1 ∧ '\n' ∉ p.2)
    (hq : ∀ p ∈ m, '"' ∉ p.2)
    (hnodup : (m.map Prod.fst).Nodup) :
    parseEnvContent (jsonToEnv m) = entriesJs m := by
  have hperm := entriesJs_perm m
  have hnodup' : ((entriesJs m).map Prod.fst).Nodup :=
    nodupKeys_of_perm hperm.symm hnodup
  cases he : entriesJs m with
  | nil =>
    have : jsonToEnv m = [] := by rw [jsonToEnv, he]; rfl
    rw [this, parseEnvContent_nil]
  | cons e0 erest =>
    have hene : entriesJs m ≠ [] := by rw [he]; exact List.cons_ne_nil _ _
    have hlinesne : (entriesJs m).map envEntryLine ≠ [] := by
      rw [he]; exact List.cons_ne_nil _ _
    have hmem : ∀ p ∈ entriesJs m, p ∈ m := fun p hp => hperm.mem_iff.mp hp
    have hnl : ∀ s ∈ (entriesJs m).map envEntryLine, '\n' ∉ s := by
      intro s hs
      rw [List.mem_map] at hs
      obtain ⟨p, hp, rfl⟩ := hs
      obtain ⟨_, _, _, _, h5, h6⟩ := hgood p (hmem p hp)
      exact no_nl_envEntryLine h5 h6
    have hsplit : splitNl (jsonToEnv m) = (entriesJs m).map envEntryLine := by
      rw [jsonToEnv]
      exact splitNl_joinSep hlinesne hnl
    rw [parseEnvContent_eq_assignAll, envPairs, hsplit, List.filterMap_map]
    have hre : (entriesJs m).filterMap (parseEnvLine ∘ envEntryLine) =
        entriesJs m := by
      refine filterMap_eq_self_of ?_
      intro p hp
      obtain ⟨k, v⟩ := p
      obtain ⟨h1, h2, h3, h4, _, _⟩ := hgood _ (hmem _ hp)
      exact parseEnvLine_envEntryLine h1 h2 h3 h4 (hq _ (hmem _ hp))
    rw [hre, ← he]
    exact assignAll_nil_eq hnodup'

/-! ### Claim C1 -/

/-- Claim C1 (counterexample): parse-serialize-parse is not the identity
on the parsed mapping for every input. For `T = K=a"b` the parsed value
is `a"b`; serializing escapes the quote to `a\"b` and re-parsing keeps the
interior verbatim (no un-escaping), so the value gains a backslash. -/
theorem parse_serialize_parse_cex :
    getProp (parseEnvContent (jsonToEnv (parseEnvContent "K=a\"b".toList)))
        "K".toList ≠
      getProp (parseEnvContent "K=a\"b".toList) "K".toList := by decide

/-- Claim C1 (amended): for every input text T whose parsed values contain
no double-quote character, parsing the serialization of the parse of T
yields the same key/value mapping as parsing T once. -/
theorem parse_serialize_parse_quote_free (T : Str)
    (hq : ∀ p ∈ parseEnvContent T, '"' ∉ p.2) (k : Str) :
    getProp (parseEnvContent (jsonToEnv (parseEnvContent T))) k =
      getProp (parseEnvContent T) k := by
  rw [parseEnvContent_jsonToEnv
    (fun p hp => parseEnvContent_entry_props hp) hq
    (nodupKeys_parseEnvContent T)]
  exact (getProp_eq_of_perm (entriesJs_perm (parseEnvContent T)).symm
    (nodupKeys_parseEnvContent T) k).symm

/-- Witness for C1's amended theorem at `T = A=1\nB=2`, key `A`. -/
theorem parse_serialize_parse_quote_free_witness :
    getProp (parseEnvContent (jsonToEnv (parseEnvContent "A=1\nB=2".toList)))
        "A".toList =
      getProp (parseEnvContent "A=1\nB=2".toList) "A".toList :=
  parse_serialize_parse_quote_free "A=1\nB=2".toList (by decide) "A".toList

/-! ### Claim C3 -/

lemma isQuotedVal_quoted {q : Char} (hq : q = '"' ∨ q = '\'') (i : Str) :
    isQuotedVal (q :: (i ++ [q])) = true := by
  have hc : q :: (i ++ [q]) = (q :: i) ++ [q] := rfl
  have hl : (q :: (i ++ [q])).getLast? = some q := by
    rw [hc, List.getLast?_concat]
  rcases hq with h | h <;> subst h <;> rw [isQuotedVal, hl] <;> simp

/-- Claim C3 (counterexample): the code has no length-two requirement on a
quoted value. For the line `K="` the trimmed value is the single character
`"`, which starts and ends with a double quote, so it is treated as quoted
and `slice(1, -1)` yields the empty string — not the literal `"` the claim
predicts. -/
theorem quote_stripping_single_char_cex :
    parseEnvContent "K=\"".toList = [("K".toList, [])] ∧
      parseEnvContent "K=\"".toList ≠ [("K".toList, ['"'])] := by decide

/-- Claim C3 (amended): the trimmed value has surrounding quotes stripped
exactly when it starts and ends with a matching double or single quote —
with no minimum length: a value of length ≥ 2 loses exactly one quote
from each end and keeps the interior verbatim (no un-escaping), and the
single-character value `"` (or `'`) is also treated as quoted and strips
to the empty string; when the quote test fails, no stripping occurs and
only inline-comment removal applies. -/
theorem processValue_quote_stripping (v : Str) :
    (∀ q interior, (q = '"' ∨ q = '\'') → v = q :: (interior ++ [q]) →
      processValue v = interior) ∧
    (∀ q, (q = '"' ∨ q = '\'') → v = [q] → processValue v = []) ∧
    (isQuotedVal v = false → processValue v = stripInlineComment v) := by
  refine ⟨?_, ?_, ?_⟩
  · intro q i hq hv
    subst hv
    rw [processValue, if_pos (isQuotedVal_quoted hq i)]
    have hd : (q :: (i ++ [q])).drop 1 = i ++ [q] := rfl
    rw [hd]
    exact List.dropLast_concat
  · intro q hq hv
    subst hv
    have hone : isQuotedVal [q] = true := by
      rcases hq with h | h <;> subst h <;> decide
    rw [processValue, if_pos hone]
    rfl
  · intro h
    rw [processValue, if_neg (by rw [h]; exact Bool.false_ne_true)]

/-- Witness for C3's amended theorem: a double-quoted value `"ab"` strips
to `ab`, and the single character `"` strips to the empty string. -/
theorem processValue_quote_stripping_witness :
    processValue ('"' :: ("ab".toList ++ ['"'])) = "ab".toList ∧
      processValue ['\''] = [] :=
  ⟨(processValue_quote_stripping _).1 '"' "ab".toList (Or.inl rfl) rfl,
    (processValue_quote_stripping _).2.1 '\'' (Or.inr rfl) rfl⟩

/-! ### Claim C4 -/

/-- Claim C4 (counterexample): a duplicated key keeps the position of its
first occurrence, not of the last write. For `A=1\nB=2\nA=3` the mapping
iterates as `A=3, B=2` (A first, with the last value), while the claim
predicts A after B. -/
theorem duplicate_key_position_cex :
    entriesJs (parseEnvContent "A=1\nB=2\nA=3".toList) =
        [("A".toList, "3".toList), ("B".toList, "2".toList)] ∧
      entriesJs (parseEnvContent "A=1\nB=2\nA=3".toList) ≠
        [("B".toList, "2".toList), ("A".toList, "3".toList)] := by decide

/-- Claim C4 (amended): when a key appears on two or more valid lines, the
mapping assigns it the value of the last such line, but its position in
the mapping is that of the first occurrence: the key list of the parse
result is the first-occurrence deduplication of the valid lines' keys. -/
theorem duplicate_key_last_value_first_position (content k : Str)
    (_hdup : 2 ≤ ((envPairs content).map Prod.fst).count k) :
    getProp (parseEnvContent content) k =
        getProp (envPairs content).reverse k ∧
      (parseEnvContent content).map Prod.fst =
        dedupFirst ((envPairs content).map Prod.fst) := by
  constructor
  · rw [parseEnvContent_eq_assignAll, getProp_assignAll]
    cases getProp (envPairs content).reverse k <;> rfl
  · rw [parseEnvContent_eq_assignAll, keys_assignAll]
    rfl

/-- Witness for C4's amended theorem at `A=1\nB=2\nA=3`, key `A`. -/
theorem duplicate_key_last_value_first_position_witness :
    getProp (parseEnvContent "A=1\nB=2\nA=3".toList) "A".toList =
        getProp (envPairs "A=1\nB=2\nA=3".toList).reverse "A".toList ∧
      (parseEnvContent "A=1\nB=2\nA=3".toList).map Prod.fst =
        dedupFirst ((envPairs "A=1\nB=2\nA=3".toList).map Prod.fst) :=
  duplicate_key_last_value_first_position "A=1\nB=2\nA=3".toList "A".toList
    (by decide)

/-! ### Claim C2 -/

lemma splitNl_joinSep_append {ls : List Str} (ys : Str) (hne : ls ≠ [])
    (h : ∀ s ∈ ls, '\n' ∉ s) :
    splitNl (joinSep ['\n'] ls ++ '\n' :: ys) = ls ++ splitNl ys := by
  induction ls with
  | nil => exact absurd rfl hne
  | cons s rest ih =>
    cases rest with
    | nil =>
      have hs : '\n' ∉ s := h s (List.mem_singleton.mpr rfl)
      have hj : joinSep ['\n'] [s] = s := rfl
      rw [hj, splitNl_append_cons _ hs]
      rfl
    | cons s2 r2 =>
      have hs : '\n' ∉ s := h s (List.mem_cons_self _ _)
      have hrest : ∀ t ∈ s2 :: r2, '\n' ∉ t :=
        fun t ht => h t (List.mem_cons_of_mem s ht)
      have hj : joinSep ['\n'] (s :: s2 :: r2) =
          s ++ '\n' :: joinSep ['\n'] (s2 :: r2) := by
        rw [joinSep, List.append_assoc]
        · rfl
        · exact List.cons_ne_nil _ _
      rw [hj, List.append_assoc, List.cons_append,
        splitNl_append_cons _ hs, ih (List.cons_ne_nil _ _) hrest]
      simp [List.cons_append]

/-- Claim C2 (counterexample): the generated file has no blank line
between the provenance header and the entries. For secret name `S` and
mapping `{A: 1}` the written bytes are
`# Generated by e2sm\n# Source: S\nA="1"\n`, not the claimed layout with
a blank line after the header. -/
theorem pull_file_blank_line_cex :
    pullWrittenFile "S".toList (jsonToEnv [("A".toList, "1".toList)]) =
        "# Generated by e2sm\n# Source: S\nA=\"1\"\n".toList ∧
      pullWrittenFile "S".toList (jsonToEnv [("A".toList, "1".toList)]) ≠
        specWrittenFile "S".toList (jsonToEnv [("A".toList, "1".toList)]) := by
  decide

/-- Claim C2 (amended): for every newline-free secret name and non-empty
mapping with newline-free entries, the written file consists of exactly
the two header lines followed immediately (no blank line) by the
serialized `KEY="VALUE"` lines, with a single trailing newline (the final
empty piece of the line decomposition). -/
theorem pull_file_layout (name : Str) (data : EnvObj) (hn : '\n' ∉ name)
    (hsafe : ∀ p ∈ entriesJs data, '\n' ∉ p.1 ∧ '\n' ∉ p.2)
    (hne : entriesJs data ≠ []) :
    splitNl (pullWrittenFile name (jsonToEnv data)) =
      "# Generated by e2sm".toList ::
        ("# Source: ".toList ++ name) ::
        ((entriesJs data).map envEntryLine ++ [[]]) := by
  have hA : '\n' ∉ "# Generated by e2sm".toList := by decide
  have hB : '\n' ∉ ("# Source: ".toList ++ name) := by
    intro hm
    rcases List.mem_append.mp hm with h1 | h1
    · exact absurd h1 (by decide)
    · exact hn h1
  have hlit : "# Generated by e2sm\n# Source: ".toList =
      "# Generated by e2sm".toList ++ '\n' :: "# Source: ".toList := by decide
  have hlinesne : (entriesJs data).map envEntryLine ≠ [] := by
    intro hmap
    exact hne (List.map_eq_nil_iff.mp hmap)
  have hnl : ∀ s ∈ (entriesJs data).map envEntryLine, '\n' ∉ s := by
    intro s hs
    rw [List.mem_map] at hs
    obtain ⟨p, hp, rfl⟩ := hs
    exact no_nl_envEntryLine (hsafe p hp).1 (hsafe p hp).2
  have hfile : pullWrittenFile name (jsonToEnv data) =
      "# Generated by e2sm".toList ++ '\n' ::
        (("# Source: ".toList ++ name) ++ '\n' ::
          (joinSep ['\n'] ((entriesJs data).map envEntryLine) ++
            '\n' :: ([] : Str))) := by
    rw [pullWrittenFile, generateEnvHeader, jsonToEnv, hlit]
    simp only [List.append_assoc, List.cons_append, List.nil_append,
      List.append_nil]
  rw [hfile, splitNl_append_cons _ hA, splitNl_append_cons _ hB,
    splitNl_joinSep_append _ hlinesne hnl]
  rfl

/-- Witness for C2's amended theorem at name `S`, mapping `{A: 1}`. -/
theorem pull_file_layout_witness :
    splitNl (pullWrittenFile "S".toList (jsonToEnv [("A".toList, "1".toList)])) =
      "# Generated by e2sm".toList ::
        ("# Source: ".toList ++ "S".toList) ::
        ((entriesJs [("A".toList, "1".toList)]).map envEntryLine ++ [[]]) :=
  pull_file_layout "S".toList [("A".toList, "1".toList)] (by decide)
    (by decide) (by decide)

/-! ### Claim C9 -/

lemma not_lower_of_upper {c : Char} (h : isAsciiUpper c = true) :
    isAsciiLower c = false := by
  simp only [isAsciiUpper, Bool.and_eq_true, decide_eq_true_eq] at h
  simp only [isAsciiLower, Bool.and_eq_false_iff, decide_eq_false_iff_not]
  left
  omega

lemma kebabScan_eq_spec_aux :
    ∀ (n : Nat) (s : Str), s.length ≤ n → kebabScan s = kebabSpecMark s := by
  intro n
  induction n with
  | zero =>
    intro s hs
    cases s with
    | nil => rfl
    | cons a r => simp at hs
  | succ n ih =>
    intro s hs
    cases s with
    | nil => rfl
    | cons a t =>
      cases t with
      | nil => rfl
      | cons b rest =>
        rw [kebabScan, kebabSpecMark]
        by_cases hc : (isAsciiLower a && isAsciiUpper b) = true
        · rw [if_pos hc, if_pos hc]
          have hb : isAsciiUpper b = true := (Bool.and_eq_true _ _ |>.mp hc).2
          have hbl : isAsciiLower b = false := not_lower_of_upper hb
          have hlen : rest.length ≤ n := by
            simp only [List.length_cons] at hs
            omega
          have hrest : kebabScan rest = kebabSpecMark rest := ih rest hlen
          have hspec : kebabSpecMark (b :: rest) = b :: kebabSpecMark rest := by
            cases rest with
            | nil => rfl
            | cons c2 r2 =>
              rw [kebabSpecMark, if_neg (by simp [hbl])]
          rw [hspec, hrest]
        · rw [if_neg hc, if_neg hc]
          have hlen : (b :: rest).length ≤ n := by
            simp only [List.length_cons] at hs ⊢
            omega
          rw [ih (b :: rest) hlen]

lemma kebabScan_eq_spec (s : Str) : kebabScan s = kebabSpecMark s :=
  kebabScan_eq_spec_aux s.length s le_rfl

/-- Claim C9 (confirmed): `toKebabCase` equals the spec's description —
a hyphen inserted at exactly the lowercase-to-uppercase transitions
(pairwise, so consecutive capitals get no extra hyphen), then the whole
string lowercased — and the two example values hold. -/
theorem toKebabCase_spec :
    (∀ s, toKebabCase s = kebabSpec s) ∧
      toKebabCase "dryRun".toList = "dry-run".toList ∧
      toKebabCase "thisIsATest".toList = "this-is-atest".toList := by
  refine ⟨fun s => ?_, by decide, by decide⟩
  rw [toKebabCase, kebabSpec, kebabScan_eq_spec]

/-! ### Claim C6 -/

/-- Claim C6 (confirmed): `validateNameTemplateConflict` errors exactly
when the name flag is set (truthy) and the trio is active under the
inclusive-or rule, the error lists exactly the trio members actually set,
in the fixed order template, application, stage, and it returns null in
every other case. -/
theorem validateNameTemplateConflict_spec (flags : CmdFlags) :
    (validateNameTemplateConflict flags = none ↔
      ¬(truthyOptStr flags.name = true ∧ isTemplateMode flags = true)) ∧
    (isTemplateMode flags =
      (trioSet flags TrioFlag.template || trioSet flags TrioFlag.application ||
        trioSet flags TrioFlag.stage)) ∧
    (truthyOptStr flags.name = true → isTemplateMode flags = true →
      validateNameTemplateConflict flags =
        some ("Cannot use --name with ".toList ++
          joinSep ", ".toList
            (([TrioFlag.template, TrioFlag.application, TrioFlag.stage].filter
                (trioSet flags)).map trioName))) := by
  refine ⟨?_, rfl, ?_⟩
  · by_cases hb : (truthyOptStr flags.name && isTemplateMode flags) = true
    · rw [validateNameTemplateConflict, if_pos hb]
      rw [Bool.and_eq_true] at hb
      simp [hb]
    · rw [validateNameTemplateConflict, if_neg hb]
      rw [Bool.and_eq_true] at hb
      simp [hb]
  · intro h1 h2
    rw [validateNameTemplateConflict, if_pos (by rw [h1, h2]; rfl)]
    have hlist :
        (if truthyOptBool flags.template then ["--template".toList] else []) ++
            (if truthyOptStr flags.application then ["--application".toList]
              else []) ++
            (if truthyOptStr flags.stage then ["--stage".toList] else []) =
          ([TrioFlag.template, TrioFlag.application, TrioFlag.stage].filter
              (trioSet flags)).map trioName := by
      cases ht : truthyOptBool flags.template <;>
        cases ha : truthyOptStr flags.application <;>
        cases hs2 : truthyOptStr flags.stage <;>
        simp [trioSet, trioName, List.filter, ht, ha, hs2]
    rw [hlist]

/-- Witness for C6's theorem: name with template and stage set yields the
error listing exactly `--template, --stage`. -/
theorem validateNameTemplateConflict_spec_witness :
    validateNameTemplateConflict
        ⟨some "s".toList, some true, none, some "p".toList⟩ =
      some ("Cannot use --name with ".toList ++
        joinSep ", ".toList
          (([TrioFlag.template, TrioFlag.application, TrioFlag.stage].filter
              (trioSet ⟨some "s".toList, some true, none,
                some "p".toList⟩)).map
            trioName)) :=
  (validateNameTemplateConflict_spec _).2.2 (by decide) (by decide)

/-! ### Claim C10 -/

/-- Claim C10 (confirmed): presence in the conflict validators is judged
by truthiness. An empty-string name never conflicts; template mode is off
when template is unset or false and application and stage are absent or
empty; and an explicitly empty application or stage does not appear in a
conflict message. -/
theorem conflict_presence_is_truthiness :
    (∀ t a s, validateNameTemplateConflict
        ⟨some [], t, a, s⟩ = none) ∧
    (∀ nm t a s, (t = none ∨ t = some false) → (a = none ∨ a = some []) →
      (s = none ∨ s = some []) →
      isTemplateMode ⟨nm, t, a, s⟩ = false) ∧
    validateNameTemplateConflict
        ⟨some "s".toList, some true, some [], some []⟩ =
      some "Cannot use --name with --template".toList := by
  refine ⟨?_, ?_, by decide⟩
  · intro t a s
    rw [validateNameTemplateConflict, if_neg (by simp [truthyOptStr])]
  · intro nm t a s ht ha hs
    rcases ht with rfl | rfl <;> rcases ha with rfl | rfl <;>
      rcases hs with rfl | rfl <;> rfl

/-- Witness for C10's theorem: empty-string application and stage with an
unset template leave template mode off. -/
theorem conflict_presence_is_truthiness_witness :
    isTemplateMode ⟨none, none, some [], some []⟩ = false :=
  conflict_presence_is_truthiness.2.1 none none (some []) (some [])
    (Or.inl rfl) (Or.inr rfl) (Or.inr rfl)

/-! ### Claim C7 -/

lemma checkTokens_eq_find? (known : List Str) (tokens : List ArgToken) :
    checkTokens known tokens =
      (tokens.find? (offendingToken known)).map unknownOptionMsg := by
  induction tokens with
  | nil => rfl
  | cons t rest ih =>
    rw [checkTokens]
    by_cases hk : t.kind = "option".toList ∧ truthyOptStr t.name = true
    · rw [if_pos hk]
      by_cases hc : known.contains (stripNoPrefix (t.name.getD [])) = true
      · rw [if_pos hc, ih]
        have hoff : offendingToken known t = false := by
          rw [offendingToken, decide_eq_true hk.1, hk.2, hc]
          rfl
        rw [List.find?_cons, hoff]
      · rw [if_neg hc]
        rw [Bool.not_eq_true] at hc
        have hoff : offendingToken known t = true := by
          rw [offendingToken, decide_eq_true hk.1, hk.2, hc]
          rfl
        rw [List.find?_cons, hoff]
        rfl
    · rw [if_neg hk, ih]
      have hoff : offendingToken known t = false := by
        rcases not_and_or.mp hk with h | h
        · rw [offendingToken, decide_eq_false h]
          rfl
        · have hf : truthyOptStr t.name = false := by
            revert h
            cases truthyOptStr t.name <;> simp
          simp [offendingToken, hf]
      rw [List.find?_cons, hoff]

lemma mem_knownFold (s : Str) :
    ∀ (l : List (Str × ArgSchema)) (init : List Str),
      s ∈ l.foldl
          (fun acc p =>
            acc ++ [p.1, toKebabCase p.1] ++
              (if truthyOptStr p.2.short then [p.2.short.getD []] else []))
          init ↔
        s ∈ init ∨ ∃ p ∈ l, s = p.1 ∨ s = toKebabCase p.1 ∨
          (truthyOptStr p.2.short = true ∧ p.2.short = some s) := by
  intro l
  induction l with
  | nil =>
    intro init
    rw [List.foldl_nil]
    constructor
    · exact Or.inl
    · rintro (h | ⟨p, hp, _⟩)
      · exact h
      · exact absurd hp (List.not_mem_nil p)
  | cons q rest ih =>
    intro init
    rw [List.foldl_cons, ih]
    constructor
    · rintro (h | ⟨p, hp, hP⟩)
      · rcases List.mem_append.mp h with h1 | h1
        · rcases List.mem_append.mp h1 with h2 | h2
          · exact Or.inl h2
          · right
            refine ⟨q, List.mem_cons_self _ _, ?_⟩
            rcases List.mem_cons.mp h2 with h3 | h3
            · exact Or.inl h3
            · rw [List.mem_singleton] at h3
              exact Or.inr (Or.inl h3)
        · right
          refine ⟨q, List.mem_cons_self _ _, ?_⟩
          split at h1
          · rw [List.mem_singleton] at h1
            rename_i htr
            refine Or.inr (Or.inr ⟨htr, ?_⟩)
            have hex : ∃ sh, q.2.short = some sh := by
              cases hq2 : q.2.short with
              | none => rw [hq2] at htr; exact absurd htr (by decide)
              | some sh => exact ⟨sh, rfl⟩
            obtain ⟨sh, hsh⟩ := hex
            rw [hsh, Option.getD_some] at h1
            rw [hsh, h1]
          · simp at h1
      · exact Or.inr ⟨p, List.mem_cons_of_mem _ hp, hP⟩
    · rintro (h | ⟨p, hp, hP⟩)
      · exact Or.inl (List.mem_append.mpr (Or.inl (List.mem_append.mpr
          (Or.inl h))))
      · rcases List.mem_cons.mp hp with h1 | h1
        · subst h1
          left
          rcases hP with h2 | h2 | h2
          · exact List.mem_append.mpr (Or.inl (List.mem_append.mpr
              (Or.inr (h2 ▸ List.mem_cons_self _ _))))
          · exact List.mem_append.mpr (Or.inl (List.mem_append.mpr
              (Or.inr (h2 ▸ List.mem_cons_of_mem _
                (List.mem_singleton.mpr rfl)))))
          · refine List.mem_append.mpr (Or.inr ?_)
            rw [if_pos h2.1, h2.2]
            exact List.mem_singleton.mpr rfl
        · exact Or.inr ⟨p, h1, hP⟩

lemma mem_knownOptionNames (args : List (Str × ArgSchema)) (s : Str) :
    s ∈ knownOptionNames args ↔
      s ∈ ["help".toList, "h".toList, "version".toList, "v".toList] ∨
        ∃ p ∈ args, s = p.1 ∨ s = toKebabCase p.1 ∨
          (truthyOptStr p.2.short = true ∧ p.2.short = some s) := by
  rw [knownOptionNames, mem_knownFold]
  constructor
  · rintro (h | ⟨p, hp, hP⟩)
    · exact Or.inl h
    · exact Or.inr ⟨p, (entriesJs_perm args).mem_iff.mp hp, hP⟩
  · rintro (h | ⟨p, hp, hP⟩)
    · exact Or.inl h
    · exact Or.inr ⟨p, (entriesJs_perm args).mem_iff.mpr hp, hP⟩

/-- Claim C7 (confirmed): `validateUnknownFlags` returns the unknown-flag
error of the first offending token in token order — an option token whose
truthy name, after stripping a leading `no-`, is outside the known set —
with the message naming the original non-stripped flag text, and returns
null exactly when no token offends; the known set consists of the
built-ins `help`/`h`/`version`/`v` plus, for each schema entry, its
declared name, its kebab-case form, and its short alias when set. -/
theorem validateUnknownFlags_spec (tokens : List ArgToken)
    (args : List (Str × ArgSchema)) :
    validateUnknownFlags tokens args =
        (tokens.find? (offendingToken (knownOptionNames args))).map
          unknownOptionMsg ∧
      (validateUnknownFlags tokens args = none ↔
        ∀ t ∈ tokens, offendingToken (knownOptionNames args) t = false) ∧
      (∀ s, s ∈ knownOptionNames args ↔
        s ∈ ["help".toList, "h".toList, "version".toList, "v".toList] ∨
          ∃ p ∈ args, s = p.1 ∨ s = toKebabCase p.1 ∨
            (truthyOptStr p.2.short = true ∧ p.2.short = some s)) := by
  refine ⟨checkTokens_eq_find? _ _, ?_, mem_knownOptionNames args⟩
  rw [validateUnknownFlags, checkTokens_eq_find?]
  constructor
  · intro h t ht
    cases hf : List.find? (offendingToken (knownOptionNames args)) tokens with
    | none =>
      have := List.find?_eq_none.mp hf t ht
      simpa using this
    | some u => rw [hf] at h; exact Option.noConfusion h
  · intro h
    cases hf : List.find? (offendingToken (knownOptionNames args)) tokens with
    | none => rfl
    | some u =>
      have hu := List.find?_some hf
      have hmem := List.mem_of_find?_eq_some hf
      rw [h u hmem] at hu
      exact Bool.noConfusion hu

/-! ### Claim C5 -/

lemma keys_filter_subset {α : Type} (p : Str × α → Bool)
    (l : List (Str × α)) :
    (l.filter p).map Prod.fst ⊆ l.map Prod.fst :=
  ((List.filter_sublist l).map Prod.fst).subset

lemma getProp_filter_none_of_not_mem {α : Type} {l : List (Str × α)}
    {k : Str} (p : Str × α → Bool) (h : k ∉ l.map Prod.fst) :
    getProp (l.filter p) k = none :=
  (getProp_eq_none_iff _ _).mpr fun hm => h (keys_filter_subset p l hm)

lemma getProp_filter_isDefined {l : ConfigObj}
    (h : (l.map Prod.fst).Nodup) (k : Str) :
    getProp (l.filter fun p => isDefined p.2) k =
      match getProp l k with
      | some v => if isDefined v then some v else none
      | none => none := by
  induction l with
  | nil => rfl
  | cons q rest ih =>
    obtain ⟨qk, qv⟩ := q
    rw [List.map_cons, List.nodup_cons] at h
    by_cases he : qk = k
    · subst he
      cases hd : isDefined qv with
      | true =>
        rw [List.filter_cons, if_pos (by simpa using hd), getProp,
          if_pos rfl, getProp, if_pos rfl]
        simp [hd]
      | false =>
        rw [List.filter_cons, if_neg (by simp [hd]),
          getProp_filter_none_of_not_mem _ h.1, getProp, if_pos rfl]
        simp [hd]
    · by_cases hd : isDefined qv = true
      · rw [List.filter_cons, if_pos (by simpa using hd), getProp,
          if_neg he, getProp, if_neg he]
        exact ih h.2
      · rw [List.filter_cons, if_neg (by simpa using hd), getProp,
          if_neg he]
        exact ih h.2

lemma getProp_spreadInto {base src : ConfigObj}
    (hsrc : (src.map Prod.fst).Nodup) (k : Str) :
    getProp (spreadInto base src) k =
      match getProp src k with
      | some v => some v
      | none => getProp base k := by
  rw [spreadInto, getProp_assignAll]
  have hp : List.Perm (entriesJs src).reverse src :=
    (List.reverse_perm _).trans (entriesJs_perm src)
  have hn : ((entriesJs src).reverse.map Prod.fst).Nodup :=
    nodupKeys_of_perm hp.symm hsrc
  rw [getProp_eq_of_perm hp hn k]
  cases getProp src k <;> rfl

/-- Claim C5 (confirmed): `mergeWithConfig` is the field-by-field overlay
of `cliValues` onto `config`: a CLI field contributes exactly when it is
present and not `undefined` (so explicit `false` or the empty string
still override), an absent or `undefined` CLI field takes the config
value, and a field absent from both is absent from the result. -/
theorem mergeWithConfig_overlay (cli config : ConfigObj)
    (hc : (cli.map Prod.fst).Nodup) (hg : (config.map Prod.fst).Nodup)
    (k : Str) :
    getProp (mergeWithConfig cli config) k =
      match getProp cli k with
      | some v => if isDefined v then some v else getProp config k
      | none => getProp config k := by
  have hcE : ((entriesJs cli).map Prod.fst).Nodup :=
    nodupKeys_of_perm (entriesJs_perm cli).symm hc
  have hfn : (((entriesJs cli).filter fun p => isDefined p.2).map
      Prod.fst).Nodup :=
    ((List.filter_sublist _).map Prod.fst).nodup hcE
  have hobj : objectFromEntries
      ((entriesJs cli).filter fun p => isDefined p.2) =
      (entriesJs cli).filter fun p => isDefined p.2 :=
    assignAll_nil_eq hfn
  rw [mergeWithConfig, hobj, getProp_spreadInto hfn]
  have hinner : getProp (spreadInto [] config) k = getProp config k := by
    rw [getProp_spreadInto hg]
    cases getProp config k <;> rfl
  rw [hinner, getProp_filter_isDefined hcE,
    getProp_eq_of_perm (entriesJs_perm cli) hcE k]
  cases getProp cli k with
  | none => rfl
  | some v =>
    cases hd : isDefined v with
    | true => simp [hd]
    | false => simp [hd]

/-- Witness for C5's theorem: an explicitly-present `false` CLI value
overrides a `true` config value. -/
theorem mergeWithConfig_overlay_witness :
    getProp (mergeWithConfig [("template".toList, JsVal.bool false)]
        [("template".toList, JsVal.bool true)]) "template".toList =
      some (JsVal.bool false) :=
  (mergeWithConfig_overlay [("template".toList, JsVal.bool false)]
      [("template".toList, JsVal.bool true)] (by decide) (by decide)
      "template".toList).trans (by decide)

/-! ### Claim C8 -/

/-- Claim C8 (counterexample): when the name is not supplied by flag or
config, the delete command fetches the secret list — an external `aws`
call — before validating the recovery-days flag, so an invalid
recovery-days value does not terminate the process before any external
call: here `deleteRun` with recovery-days `5` and no name exits with
status 1 but its trace contains an external call. -/
theorem delete_invalid_recovery_days_cex :
    deleteRun [("recoveryDays".toList, JsVal.str "5".toList)] [] []
        ⟨0, [], ["s1".toList], some "s1".toList, none, none, 0, []⟩ =
      ([Event.extCall "aws".toList
          ["secretsmanager".toList, "list-secrets".toList],
        Event.cancelMsg (invalidRecoveryMsg "5".toList)],
        Outcome.processExit 1) ∧
      ¬((deleteRun [("recoveryDays".toList, JsVal.str "5".toList)] [] []
          ⟨0, [], ["s1".toList], some "s1".toList, none, none, 0, []⟩).1.all
        (fun e => !isExtCall e) = true) := by decide

/-- Claim C8 (amended): when the secret name is resolved without
interactive selection (the name flag or config name is set) and the
provided (non-empty) recovery-days flag parses to NaN or out of [7, 30],
the run reports the invalid value via the cancel message and exits with
status 1 having made no external call at all. -/
theorem delete_invalid_recovery_days_before_external
    (values config : ConfigObj) (tokens : List ArgToken)
    (o : DeleteOracles) (s : Str)
    (hok : validateUnknownFlags tokens deleteArgs = none)
    (hname : truthy (jsCoalesce (valOf values "name".toList)
      (valOf config "name".toList)) = true)
    (hrec : valOf values "recoveryDays".toList = JsVal.str s)
    (hsne : s ≠ [])
    (hbad : invalidRecovery s = true) :
    deleteRun values config tokens o =
      ([Event.cancelMsg (invalidRecoveryMsg s)], Outcome.processExit 1) := by
  have htr : truthy (JsVal.str s) = true := by
    cases s with
    | nil => exact absurd rfl hsne
    | cons a r => rfl
  rw [deleteRun, hok]
  simp only [hname, hrec, if_true]
  rw [deleteStep2]
  simp only [htr, if_true, strOf]
  cases hp : parseIntJs s with
  | none => simp
  | some n =>
    have hb2 : n < 7 ∨ 30 < n := by
      rw [invalidRecovery, hp] at hbad
      simpa using hbad
    simp only [if_pos hb2]
    simp

/-- Witness for C8's amended theorem: name `sek` from the flags, recovery
days `9999`. -/
theorem delete_invalid_recovery_days_before_external_witness :
    deleteRun [("recoveryDays".toList, JsVal.str "9999".toList),
        ("name".toList, JsVal.str "sek".toList)] [] []
        ⟨0, [], [], none, none, none, 0, []⟩ =
      ([Event.cancelMsg (invalidRecoveryMsg "9999".toList)],
        Outcome.processExit 1) :=
  delete_invalid_recovery_days_before_external _ _ _ _ "9999".toList
    (by decide) (by decide) (by decide) (by decide) (by decide)

end E2sm
